import Mathlib

/-!
Verification of the Go-study plugin's SGF core (src/main.ts).

Strings are modelled as `List Char`; every JavaScript string primitive the
core uses (charAt, charCodeAt, fromCharCode, indexOf, parseInt, trim,
split, toLowerCase, Array.includes) is given an explicit total model, and
the two regex uses in processAnswer (the last-move lookahead and the
closing-paren replacement) are translated into their leftmost-match
semantics.  Numbers that can be negative or overflow (char codes,
indexOf misses) are modelled as Int with the ToUint16 wrap of
String.fromCharCode made explicit; the canvas pixel arithmetic of
convertClickToSgf is modelled over the rationals.
-/

/-- The six ASCII characters matched both by the \s regex class and by
String.trim on the inputs this plugin sees. -/
def isWs (c : Char) : Bool :=
  c = ' ' || c = '\t' || c = '\n' || c = '\r' || c = '\x0b' || c = '\x0c'

/-- Model of JavaScript String.prototype.trim. -/
def trimChars (s : List Char) : List Char :=
  ((s.dropWhile isWs).reverse.dropWhile isWs).reverse

/-- Model of JavaScript String.prototype.split with a single-character
separator: "a,,b" gives three fields and "" gives one empty field. -/
def jsSplit (sep : Char) : List Char → List (List Char)
  | [] => [[]]
  | c :: rest =>
    let r := jsSplit sep rest
    if c = sep then [] :: r else (c :: r.headD []) :: r.tail

/-- Model of String.prototype.indexOf for a single-character needle:
the first index, or -1 when absent. -/
def jsIndexOfChar (s : List Char) (c : Char) : Int :=
  match s.findIdx? (fun a => a == c) with
  | some i => (i : Int)
  | none => -1

/-- Model of String.fromCharCode: the argument is wrapped with ToUint16
before being interpreted as a code unit. -/
def jsFromCharCode (n : Int) : Char :=
  Char.ofNat ((n % 65536).toNat)

/-- Model of String.prototype.charCodeAt: none stands for NaN
(index out of range). -/
def jsCharCodeAt (s : List Char) (i : Nat) : Option Int :=
  (s.get? i).map (fun c => (c.toNat : Int))

/-- Model of String.prototype.charAt with a possibly negative index:
a one-character string in range, the empty string out of range. -/
def jsCharAt (s : List Char) (i : Int) : List Char :=
  if 0 ≤ i ∧ i < (s.length : Int) then [s.getD i.toNat ' '] else []

/-- Decimal digits of a natural number, via structural fuel so that the
kernel can evaluate it. -/
def natDecAux : Nat → Nat → List Char
  | 0, _ => []
  | fuel + 1, n =>
    if n < 10 then [Nat.digitChar n]
    else natDecAux fuel (n / 10) ++ [Nat.digitChar (n % 10)]

/-- Decimal representation of a natural number. -/
def natDec (n : Nat) : List Char := natDecAux (n + 1) n

/-- Decimal representation of an integer, as JavaScript Number.toString
prints an integral value. -/
def intToDec (v : Int) : List Char :=
  if v < 0 then '-' :: natDec (-v).toNat else natDec v.toNat

/-- Value of an ASCII digit character. -/
def digitVal (c : Char) : Option Nat :=
  if '0' ≤ c ∧ c ≤ '9' then some (c.toNat - 48) else none

/-- Digit-accumulating loop of parseInt: consumes digits, stops at the
first non-digit. -/
def parseDigitsAcc : List Char → Nat → Nat
  | [], acc => acc
  | c :: rest, acc =>
    match digitVal c with
    | some d => parseDigitsAcc rest (acc * 10 + d)
    | none => acc

/-- parseInt after whitespace and sign handling: NaN (none) when the first
character is not a digit. -/
def jsParseIntCore : List Char → Option Nat
  | [] => none
  | c :: rest =>
    match digitVal c with
    | some d => some (parseDigitsAcc rest d)
    | none => none

/-- Model of parseInt in base 10: skips leading whitespace, honours an
optional sign, reads a maximal digit prefix; none stands for NaN. -/
def jsParseInt (s : List Char) : Option Int :=
  match s.dropWhile isWs with
  | '-' :: rest => (jsParseIntCore rest).map (fun n => -(n : Int))
  | '+' :: rest => (jsParseIntCore rest).map (fun n => (n : Int))
  | other => (jsParseIntCore other).map (fun n => (n : Int))

/-- The 25-letter skip-alphabet (no letter i) of main.ts line 454. -/
def alphaSkip : List Char := "abcdefghjklmnopqrstuvwxyz".toList

/-- The uppercase display alphabet of main.ts line 468. -/
def alphaSkipUpper : List Char := "ABCDEFGHJKLMNOPQRSTUVWXYZ".toList

/-- humanToSgf of main.ts lines 446-462.  The first character is
lower-cased and looked up in the skip-alphabet (indexOf of the empty
string is 0, of a missing character -1); the remaining characters are
parsed as the 1-based human row and flipped to boardSize - row.  The
local variable col of lines 448-449 is dead in the source and omitted.
A NaN row makes fromCharCode produce the NUL character, as in JS. -/
def humanToSgf (human : List Char) (boardSize : Nat) : List Char :=
  let colChar : List Char := (human.take 1).map Char.toLower
  let xIndex : Int :=
    match colChar with
    | [] => 0
    | c :: _ => jsIndexOfChar alphaSkip c
  let rowOpt : Option Int := jsParseInt (human.drop 1)
  let charX : Char := jsFromCharCode (97 + xIndex)
  let charY : Char :=
    match rowOpt with
    | some v => jsFromCharCode (97 + ((boardSize : Int) - v))
    | none => jsFromCharCode 0
  [charX, charY]

/-- sgfToHuman of main.ts lines 464-472: column read as a plain 0-based
letter but displayed through the 25-letter uppercase skip-alphabet, row
flipped back to 1-based.  charCodeAt out of range is NaN; charAt of NaN
is charAt 0; a NaN row prints as the string NaN, as in JS. -/
def sgfToHuman (sgf : List Char) (boardSize : Nat) : List Char :=
  let xo := jsCharCodeAt sgf 0
  let yo := jsCharCodeAt sgf 1
  let col : List Char :=
    match xo with
    | some cx => jsCharAt alphaSkipUpper (cx - 97)
    | none => jsCharAt alphaSkipUpper 0
  let row : List Char :=
    match yo with
    | some cy => intToDec ((boardSize : Int) - (cy - 97))
    | none => ['N', 'a', 'N']
  col ++ row

/-- convertClickToSgf of main.ts lines 479-492, with pixel arithmetic over
the rationals standing in for JS floating point (the claims checked here
use only its shape, not rounding). -/
def convertClickToSgf (x y width height : ℚ) (boardSize : Nat) : List Char :=
  let stepX : ℚ := width / (boardSize : ℚ)
  let stepY : ℚ := height / (boardSize : ℚ)
  let col : Int := ⌊x / stepX⌋
  let row : Int := ⌊y / stepY⌋
  [jsFromCharCode (97 + col), jsFromCharCode (97 + row)]

example : humanToSgf ("C7".toList) 19 = "cm".toList := by decide
example : sgfToHuman ("cm".toList) 19 = "C7".toList := by decide

/-- True exactly on the lowercase ASCII letters, the regex class [a-z]. -/
def isLowerAZ (c : Char) : Bool := 'a' ≤ c && c ≤ 'z'

/-- One step of the move-property regex [BW]\[([a-z]{2})\] of main.ts line
318, tested at the head of the list: on success it yields the captured
group after the toLowerCase of line 320. -/
def isMoveProp : List Char → Option (List Char)
  | p :: '[' :: a :: b :: ']' :: _ =>
    if (p == 'B' || p == 'W') && isLowerAZ a && isLowerAZ b then
      some [a.toLower, b.toLower]
    else none
  | _ => none

/-- The matchAll loop of main.ts lines 318-321: scan left to right; on a
match collect the group and resume five characters later (the regex
lastIndex advance), otherwise slide one character.  The fuel argument is
the string length, which bounds the number of iterations. -/
def matchAllMovesGo : Nat → List Char → List (List Char)
  | 0, _ => []
  | _ + 1, [] => []
  | fuel + 1, c :: rest =>
    match isMoveProp (c :: rest) with
    | some mv => mv :: matchAllMovesGo fuel (rest.drop 4)
    | none => matchAllMovesGo fuel rest

/-- The sgfAnswers array built in showProblem (main.ts lines 317-321):
all move coordinates of the fragment in textual order. -/
def sgfAnswers (sgfData : List Char) : List (List Char) :=
  matchAllMovesGo sgfData.length sgfData

/-- The regex /^[a-z][0-9]\x7b1,2\x7d$/i of main.ts line 393: one ASCII
letter of either case followed by one or two digits. -/
def isHumanPattern : List Char → Bool
  | [c, d] => (isLowerAZ c || isLowerAZ c.toLower) && (digitVal d).isSome
  | [c, d1, d2] =>
    (isLowerAZ c || isLowerAZ c.toLower) && (digitVal d1).isSome && (digitVal d2).isSome
  | _ => false

/-- String(page.answer || defaultAnswer) of main.ts line 387: a missing or
empty (falsy) answer field falls back to the configured default. -/
def answerOrDefault : Option (List Char) → List Char → List Char
  | none, d => d
  | some [], d => d
  | some a, _ => a

/-- The normalized accepted-answer list of main.ts lines 387-397: split on
commas, lower-case and trim each entry, then convert entries matching the
human-coordinate pattern through the codec. -/
def normalizedExpected (answerField : Option (List Char)) (defaultAnswer : List Char)
    (boardSize : Nat) : List (List Char) :=
  ((jsSplit ',' (answerOrDefault answerField defaultAnswer)).map
      (fun s => trimChars (s.map Char.toLower))).map
    (fun ans => if isHumanPattern ans then humanToSgf ans boardSize else ans)

/-- Array.prototype.includes on string arrays (strict equality). -/
def jsIncludes (l : List (List Char)) (x : List Char) : Bool :=
  l.any (fun e => e == x)

/-- The lookahead [^;]*\s*\)$ of the last-move regex, applied to the text
after the matched move: it holds iff that text ends with a closing paren
and contains no further semicolon. -/
def tailOK (rest : List Char) : Bool :=
  (rest.getLast? == some ')') && rest.all (fun c => !(c == ';'))

/-- The last-move regex ;([BW])\[([a-z]{2})\](?=[^;]*\s*\)$) of main.ts
line 407, tested at the head of the list: on success it yields the
captured player. -/
def matchAtLast : List Char → Option Char
  | ';' :: p :: '[' :: a :: b :: ']' :: rest =>
    if (p == 'B' || p == 'W') && isLowerAZ a && isLowerAZ b && tailOK rest then
      some p
    else none
  | _ => none

/-- String.prototype.match with the last-move regex: the leftmost position
at which the pattern and its lookahead succeed.  The lookahead forbids any
semicolon after the matched move, so at most one position can succeed. -/
def findLastMove : List Char → Option Char
  | [] => none
  | c :: rest =>
    match matchAtLast (c :: rest) with
    | some p => some p
    | none => findLastMove rest

/-- The next-player ternary of main.ts line 408: W when the matched last
move is by B, otherwise (a W last move, or no match at all) B. -/
def nextColor (sgfData : List Char) : Char :=
  if findLastMove sgfData = some 'B' then 'W' else 'B'

/-- The replace of main.ts line 411 with regex (\)\s*)$: the leftmost
match is the last non-whitespace character provided it is a closing
paren; the new move property is inserted before it and the trailing
whitespace is kept via the $1 backreference.  When the regex does not
match, replace returns the string unchanged. -/
def appendMove (sgfData : List Char) (color : Char) (coords : List Char) : List Char :=
  let ws := sgfData.reverse.takeWhile isWs
  let core := sgfData.reverse.dropWhile isWs
  match core.head? with
  | some c =>
    if c = ')' then
      core.tail.reverse ++ [';', color, '['] ++ coords ++ [']', ')'] ++ ws.reverse
    else sgfData
  | none => sgfData

/-- The outputs of one processAnswer call (main.ts lines 385-422) that
reach the renderer: the verdict of line 399, the updated SGF of line 411
and the move count of line 413. -/
structure SubmissionResult where
  verdict : Bool
  updatedSgf : List Char
  newMoveCount : Nat
deriving DecidableEq

/-- processAnswer of main.ts lines 385-422, restricted to its computation
on the captured problem state (sgfData, the answer field, the default
answer setting and the board size) and the submitted SGF coordinate. -/
def processAnswer (sgfData : List Char) (answerField : Option (List Char))
    (defaultAnswer : List Char) (boardSize : Nat) (coords : List Char) : SubmissionResult :=
  let isCorrect :=
    jsIncludes (normalizedExpected answerField defaultAnswer boardSize) coords ||
      jsIncludes (sgfAnswers sgfData) coords
  { verdict := isCorrect
    updatedSgf := appendMove sgfData (nextColor sgfData) coords
    newMoveCount := (sgfAnswers sgfData).length + 1 }

/-- The per-problem-view state of showProblem: sgfData is the const of
main.ts line 312, parsed once and captured by the processAnswer closure;
the displayed fields are what refreshBoard last rendered. -/
structure SessionState where
  sgfData : List Char
  displayedSgf : List Char
  displayedCount : Nat
deriving DecidableEq

/-- One trial submission inside a problem view: processAnswer always reads
the captured original sgfData, never the previously displayed string, and
refreshBoard shows its outputs. -/
def submitTrial (st : SessionState) (answerField : Option (List Char))
    (defaultAnswer : List Char) (boardSize : Nat) (coords : List Char) : SessionState :=
  let r := processAnswer st.sgfData answerField defaultAnswer boardSize coords
  { sgfData := st.sgfData, displayedSgf := r.updatedSgf, displayedCount := r.newMoveCount }

/-- The plugin settings interface of main.ts lines 5-8. -/
structure MyPluginSettings where
  problemTag : List Char
  defaultAnswer : List Char

/-- DEFAULT_SETTINGS of main.ts lines 10-13. -/
def DEFAULT_SETTINGS : MyPluginSettings :=
  { problemTag := "igo-problem".toList, defaultAnswer := "pd".toList }

/-- Modelled from the spec: a player-move property (a B or W tag followed
by a bracketed two-lowercase-letter coordinate) tested at the head of the
list, yielding the player who played it.  Used only to state, against the
code, which player the chronologically last move property belongs to. -/
def playerAt : List Char → Option Char
  | p :: '[' :: a :: b :: ']' :: _ =>
    if (p == 'B' || p == 'W') && isLowerAZ a && isLowerAZ b then some p else none
  | _ => none

/-- Modelled from the spec: the player of the chronologically last
player-move property in the fragment. -/
def lastPlayerSpec (cs : List Char) : Option Char :=
  ((List.range cs.length).filterMap (fun i => playerAt (cs.drop i))).getLast?

/-- Harness constructor for a human coordinate: skip-alphabet column
letter number i followed by the decimal 1-based row r. -/
def mkHuman (i r : Nat) : List Char := alphaSkip.getD i ' ' :: natDec r

/-- True on a two-character all-lowercase coordinate. -/
def isLowerPair : List Char → Bool
  | [a, b] => isLowerAZ a && isLowerAZ b
  | _ => false

example : sgfAnswers ("(;SZ[9];B[ee]C[center opening]RE[B+1.5])".toList) = ["ee".toList] := by
  decide
example : nextColor ("(;B[pd])".toList) = 'W' := by decide
example : nextColor ("(;B[pd]C[a;b])".toList) = 'B' := by decide
example : lastPlayerSpec ("(;B[pd]C[a;b])".toList) = some 'B' := by decide
example : appendMove ("(;B[pd]) ".toList) 'W' ("dp".toList) = "(;B[pd];W[dp]) ".toList := by
  decide

theorem jsSplit_ne_nil (sep : Char) (s : List Char) : jsSplit sep s ≠ [] := by
  cases s with
  | nil => simp [jsSplit]
  | cons c rest =>
    simp only [jsSplit]
    split <;> simp

/-- C7: for boardSize 19 the human input C7 converts to the SGF
coordinate cm, the column index in the skip-alphabet being 2 and the SGF
row letter being character 97 + (19 - 7) = m. -/
theorem humanToSgf_C7 :
    humanToSgf ("C7".toList) 19 = "cm".toList ∧
      jsIndexOfChar alphaSkip 'c' = 2 ∧
      jsFromCharCode (97 + ((19 : Int) - 7)) = 'm' := by
  refine ⟨by decide, by decide, by decide⟩

/-- C5: the move appender is pure.  A trial submission leaves the captured
original fragment unchanged, and a second trial after a first one yields
exactly the state a lone second trial would: appended fragments are always
derived from the original parsed fragment, so trials never compound. -/
theorem append_pure_trials_never_compound (st : SessionState)
    (answerField : Option (List Char)) (defaultAnswer : List Char) (boardSize : Nat)
    (c1 c2 : List Char) :
    (submitTrial st answerField defaultAnswer boardSize c1).sgfData = st.sgfData ∧
      submitTrial (submitTrial st answerField defaultAnswer boardSize c1)
          answerField defaultAnswer boardSize c2 =
        submitTrial st answerField defaultAnswer boardSize c2 := by
  exact ⟨rfl, rfl⟩

/-- C9: the accepted-answer list handed to the judge is never empty, and
when no per-problem answer field is configured the shipped default-answer
setting pd supplies exactly one entry. -/
theorem accepted_answers_never_empty :
    (∀ (answerField : Option (List Char)) (defaultAnswer : List Char) (boardSize : Nat),
        0 < (normalizedExpected answerField defaultAnswer boardSize).length) ∧
      ∀ boardSize : Nat,
        normalizedExpected none DEFAULT_SETTINGS.defaultAnswer boardSize = [ "pd".toList ] := by
  constructor
  · intro answerField defaultAnswer boardSize
    have h := jsSplit_ne_nil ',' (answerOrDefault answerField defaultAnswer)
    simp only [normalizedExpected, List.length_map]
    exact List.length_pos.mpr h
  · intro boardSize
    rfl

/-- C1: the judge answers true exactly when the submitted SGF coordinate
is a member of the normalized accepted-answer set (each comma-separated
entry lower-cased and trimmed, entries matching the human-coordinate
pattern converted through the codec, all others passed through unchanged)
or a member of the coordinate list parsed from the SGF move sequence. -/
theorem judge_iff_membership (sgfData : List Char) (answerField : Option (List Char))
    (defaultAnswer : List Char) (boardSize : Nat) (coords : List Char) :
    (processAnswer sgfData answerField defaultAnswer boardSize coords).verdict = true ↔
      (coords ∈ ((jsSplit ',' (answerOrDefault answerField defaultAnswer)).map
            (fun s => trimChars (s.map Char.toLower))).map
          (fun ans => if isHumanPattern ans then humanToSgf ans boardSize else ans) ∨
        coords ∈ sgfAnswers sgfData) := by
  simp only [processAnswer, normalizedExpected, jsIncludes, Bool.or_eq_true,
    List.any_eq_true, beq_iff_eq]
  constructor
  · rintro (⟨e, he, rfl⟩ | ⟨e, he, rfl⟩)
    · exact Or.inl he
    · exact Or.inr he
  · rintro (h | h)
    · exact Or.inl ⟨coords, h, rfl⟩
    · exact Or.inr ⟨coords, h, rfl⟩

theorem appendMove_eq_insert (pre ws : List Char) (color : Char) (coords : List Char)
    (hws : ∀ c ∈ ws, isWs c = true) :
    appendMove (pre ++ [')'] ++ ws) color coords =
      pre ++ [';', color, '['] ++ coords ++ [']', ')'] ++ ws := by
  have hwsrev : ∀ c ∈ ws.reverse, isWs c = true := by
    intro c hc
    exact hws c (List.mem_reverse.mp hc)
  have hnp : ¬ (isWs ')' = true) := by decide
  have hrev : (pre ++ [')'] ++ ws).reverse = ws.reverse ++ ')' :: pre.reverse := by
    simp
  simp only [appendMove, hrev, List.takeWhile_append_of_pos hwsrev,
    List.dropWhile_append_of_pos hwsrev, List.takeWhile_cons_of_neg hnp,
    List.dropWhile_cons_of_neg hnp, List.append_nil, List.head?_cons, List.tail_cons,
    List.reverse_reverse]
  simp

/-- C4: for a fragment consisting of arbitrary content followed by its
closing paren and trailing whitespace, the appender returns that content
byte for byte with the new move property inserted immediately before the
closing paren, trailing whitespace preserved; and the move count handed to
the renderer is the parsed move count plus one for every submission. -/
theorem append_inserts_before_close (pre ws : List Char)
    (answerField : Option (List Char)) (defaultAnswer : List Char) (boardSize : Nat)
    (coords : List Char) (hws : ws.all isWs = true) :
    (processAnswer (pre ++ [')'] ++ ws) answerField defaultAnswer boardSize coords).updatedSgf =
        pre ++ [';', nextColor (pre ++ [')'] ++ ws), '['] ++ coords ++ [']', ')'] ++ ws ∧
      (processAnswer (pre ++ [')'] ++ ws) answerField defaultAnswer boardSize
            coords).newMoveCount =
        (sgfAnswers (pre ++ [')'] ++ ws)).length + 1 := by
  refine ⟨?_, rfl⟩
  exact appendMove_eq_insert pre ws _ coords (List.all_eq_true.mp hws)

/-- Witness for C4 at the fragment (;B[pd]) with one trailing space (the
trailing space also defeats the last-move lookahead, so the attributed
color there is the default B). -/
theorem append_inserts_before_close_witness :
    ([' '] : List Char).all isWs = true ∧
      (processAnswer ("(;B[pd]) ".toList) none ("pd".toList) 19 ("dp".toList)).updatedSgf =
        "(;B[pd];B[dp]) ".toList ∧
      (processAnswer ("(;B[pd]) ".toList) none ("pd".toList) 19
          ("dp".toList)).newMoveCount = 2 := by
  have e : "(;B[pd]) ".toList = "(;B[pd]".toList ++ [')'] ++ [' '] := by decide
  have h := append_inserts_before_close ("(;B[pd]".toList) [' '] none ("pd".toList) 19
    ("dp".toList) (by decide)
  refine ⟨by decide, ?_, ?_⟩
  · rw [e, h.1]
    decide
  · rw [e, h.2]
    decide

example : nextColor ("(;B[pd]) ".toList) = 'B' := by decide

/-- C10: when the fragment does not end with a closing paren optionally
followed by whitespace, the replace regex finds no match, so the appended
text equals the input fragment unchanged while the move count handed to
the renderer is still the parsed move count plus one. -/
theorem append_noop_without_close (frag : List Char) (answerField : Option (List Char))
    (defaultAnswer : List Char) (boardSize : Nat) (coords : List Char)
    (hno : (frag.reverse.dropWhile isWs).head? ≠ some ')') :
    (processAnswer frag answerField defaultAnswer boardSize coords).updatedSgf = frag ∧
      (processAnswer frag answerField defaultAnswer boardSize coords).newMoveCount =
        (sgfAnswers frag).length + 1 := by
  refine ⟨?_, rfl⟩
  show appendMove frag (nextColor frag) coords = frag
  simp only [appendMove]
  cases h : (frag.reverse.dropWhile isWs).head? with
  | none => simp [h]
  | some c =>
    have hc : ¬ c = ')' := by
      intro hc
      exact hno (by rw [h, hc])
    simp [h, hc]

/-- Witness for C10 at a fragment with no closing paren. -/
theorem append_noop_without_close_witness :
    ((("(;B[aa]".toList).reverse.dropWhile isWs).head? ≠ some ')') ∧
      (processAnswer ("(;B[aa]".toList) none ("pd".toList) 19 ("dp".toList)).updatedSgf =
        "(;B[aa]".toList ∧
      (processAnswer ("(;B[aa]".toList) none ("pd".toList) 19 ("dp".toList)).newMoveCount =
        (sgfAnswers ("(;B[aa]".toList)).length + 1 := by
  refine ⟨by decide, ?_⟩
  exact append_noop_without_close ("(;B[aa]".toList) none ("pd".toList) 19 ("dp".toList)
    (by decide)

theorem matchAtLast_some {cs : List Char} {q : Char} (h : matchAtLast cs = some q) :
    ∃ x y rest, cs = ';' :: q :: '[' :: x :: y :: ']' :: rest ∧ (q = 'B' ∨ q = 'W') ∧
      isLowerAZ x = true ∧ isLowerAZ y = true ∧ tailOK rest = true := by
  unfold matchAtLast at h
  split at h
  · rename_i p x y rest
    split at h
    · rename_i hg
      rw [Option.some.injEq] at h
      subst h
      simp only [Bool.and_eq_true, Bool.or_eq_true, beq_iff_eq] at hg
      exact ⟨x, y, rest, rfl, hg.1.1.1, hg.1.1.2, hg.1.2, hg.2⟩
    · simp at h
  · simp at h

theorem findLastMove_append (pre post : List Char) (p a b : Char)
    (hp : p = 'B' ∨ p = 'W') (ha : isLowerAZ a = true) (hb : isLowerAZ b = true)
    (hsemi : ';' ∉ post) (hlast : post.getLast? = some ')') :
    findLastMove (pre ++ ';' :: p :: '[' :: a :: b :: ']' :: post) = some p := by
  have htok : tailOK post = true := by
    simp only [tailOK, Bool.and_eq_true, beq_iff_eq, List.all_eq_true]
    refine ⟨hlast, fun c hc => ?_⟩
    simp only [Bool.not_eq_true', beq_eq_false_iff_ne, ne_eq]
    intro he
    exact hsemi (he ▸ hc)
  induction pre with
  | nil =>
    have hm : matchAtLast (';' :: p :: '[' :: a :: b :: ']' :: post) = some p := by
      simp only [matchAtLast]
      rw [if_pos]
      simp only [Bool.and_eq_true, Bool.or_eq_true, beq_iff_eq]
      exact ⟨⟨⟨hp, ha⟩, hb⟩, htok⟩
    simp only [List.nil_append, findLastMove, hm]
  | cons c pre ih =>
    simp only [List.cons_append, findLastMove]
    cases hm : matchAtLast (c :: (pre ++ ';' :: p :: '[' :: a :: b :: ']' :: post)) with
    | none => exact ih
    | some q =>
      exfalso
      obtain ⟨x, y, rest, heq, hq, hx, hy, ht⟩ := matchAtLast_some hm
      injection heq with hc htail
      have hsm : ';' ∈ pre ++ ';' :: p :: '[' :: a :: b :: ']' :: post := by simp
      rw [htail] at hsm
      simp only [List.mem_cons] at hsm
      rcases hsm with h1 | h1 | h1 | h1 | h1 | h1
      · rcases hq with h | h <;> rw [h] at h1 <;> exact absurd h1 (by decide)
      · exact absurd h1 (by decide)
      · rw [← h1] at hx
        exact absurd hx (by decide)
      · rw [← h1] at hy
        exact absurd hy (by decide)
      · exact absurd h1 (by decide)
      · simp only [tailOK, Bool.and_eq_true, List.all_eq_true] at ht
        have := ht.2 ';' h1
        exact absurd this (by decide)

/-- C3 counterexample: in the fragment (;B[pd]C[a;b]) the chronologically
last player-move property is B[pd], so the claim demands the appended
move be attributed to W; but the semicolon inside the comment defeats the
lookahead of the last-move regex, so the code attributes it to B. -/
theorem next_color_counterexample :
    lastPlayerSpec ("(;B[pd]C[a;b])".toList) = some 'B' ∧
      nextColor ("(;B[pd]C[a;b])".toList) = 'B' ∧
      ¬ nextColor ("(;B[pd]C[a;b])".toList) = 'W' := by
  exact ⟨by decide, by decide, by decide⟩

/-- C3 amended: when no semicolon occurs between the last player-move
property and the fragment's final closing paren, the appended move is
attributed to the opposite player of that move; whenever the last-move
regex finds no match (in particular when no prior move exists) the
attribution is the deterministic default B. -/
theorem next_color_amended :
    (∀ (pre post : List Char) (p a b : Char), p = 'B' ∨ p = 'W' → isLowerAZ a = true →
        isLowerAZ b = true → ';' ∉ post → post.getLast? = some ')' →
        nextColor (pre ++ ';' :: p :: '[' :: a :: b :: ']' :: post) =
          if p = 'B' then 'W' else 'B') ∧
      ∀ frag : List Char, findLastMove frag = none → nextColor frag = 'B' := by
  constructor
  · intro pre post p a b hp ha hb hsemi hlast
    rw [nextColor, findLastMove_append pre post p a b hp ha hb hsemi hlast]
    rcases hp with h | h <;> subst h <;> simp
  · intro frag h
    rw [nextColor, h]
    simp

/-- Witness for C3 amended: in (;B[pd]) the last move is by B and the
next color is W; in the moveless fragment () it defaults to B. -/
theorem next_color_amended_witness :
    nextColor ("(;B[pd])".toList) = 'W' ∧ nextColor ("()".toList) = 'B' := by
  constructor
  · have e : "(;B[pd])".toList = ['('] ++ ';' :: 'B' :: '[' :: 'p' :: 'd' :: ']' :: [')'] := by
      decide
    have h := next_color_amended.1 ['('] [')'] 'B' 'p' 'd' (Or.inl rfl) (by decide) (by decide)
      (by decide) (by decide)
    rw [e, h]
    decide
  · exact next_color_amended.2 ("()".toList) (by decide)

theorem toLower_id_of_lower {c : Char} (hc : isLowerAZ c = true) : c.toLower = c := by
  simp only [isLowerAZ, Bool.and_eq_true, decide_eq_true_eq] at hc
  have h97 : 97 ≤ c.toNat := hc.1
  show (if c.toNat ≥ 65 ∧ c.toNat ≤ 90 then Char.ofNat (c.toNat + 32) else c) = c
  rw [if_neg]
  omega

theorem isMoveProp_some {cs mv : List Char} (h : isMoveProp cs = some mv) :
    ∃ p x y rest, cs = p :: '[' :: x :: y :: ']' :: rest ∧ (p = 'B' ∨ p = 'W') ∧
      isLowerAZ x = true ∧ isLowerAZ y = true ∧ mv = [x.toLower, y.toLower] := by
  unfold isMoveProp at h
  split at h
  · rename_i p x y rest
    split at h
    · rename_i hg
      rw [Option.some.injEq] at h
      simp only [Bool.and_eq_true, Bool.or_eq_true, beq_iff_eq] at hg
      exact ⟨p, x, y, rest, rfl, hg.1.1, hg.1.2, hg.2, h.symm⟩
    · simp at h
  · simp at h

theorem isMoveProp_none_head {z : Char} (zs : List Char)
    (hz : (z == 'B' || z == 'W') = false) : isMoveProp (z :: zs) = none := by
  cases h : isMoveProp (z :: zs) with
  | none => rfl
  | some mv =>
    obtain ⟨p, x, y, rest, heq, hp, _, _, _⟩ := isMoveProp_some h
    injection heq with h1 _
    rcases hp with h2 | h2 <;> rw [h1, h2] at hz <;> exact absurd hz (by decide)

theorem lower_not_BW {z : Char} (hz : isLowerAZ z = true) : (z == 'B' || z == 'W') = false := by
  cases hb : z == 'B' with
  | true =>
    rw [beq_iff_eq.mp hb] at hz
    exact absurd hz (by decide)
  | false =>
    cases hw : z == 'W' with
    | true =>
      rw [beq_iff_eq.mp hw] at hz
      exact absurd hz (by decide)
    | false => simp [hb, hw]

theorem filterMap_range_drop_cons {β : Type} (g : List Char → Option β) (c : Char)
    (rest : List Char) :
    (List.range (c :: rest).length).filterMap (fun i => g ((c :: rest).drop i)) =
      (g (c :: rest)).toList ++
        (List.range rest.length).filterMap (fun i => g (rest.drop i)) := by
  rw [List.length_cons, List.range_succ_eq_map, List.filterMap_cons, List.filterMap_map]
  cases hg : g (c :: rest) <;>
    simp [hg, Function.comp_def, List.drop_succ_cons]

theorem matchAllMovesGo_spec : ∀ (fuel : Nat) (cs : List Char), cs.length ≤ fuel →
    matchAllMovesGo fuel cs =
      (List.range cs.length).filterMap (fun i => isMoveProp (cs.drop i)) := by
  intro fuel
  induction fuel with
  | zero =>
    intro cs h
    have he : cs = [] := List.eq_nil_of_length_eq_zero (Nat.le_zero.mp h)
    subst he
    rfl
  | succ fuel ih =>
    intro cs h
    cases cs with
    | nil => rfl
    | cons c rest =>
      rw [filterMap_range_drop_cons]
      cases hm : isMoveProp (c :: rest) with
      | none =>
        simp only [matchAllMovesGo, hm, Option.toList_none, List.nil_append]
        exact ih rest (by simpa using Nat.le_of_succ_le_succ h)
      | some mv =>
        obtain ⟨p, x, y, rest2, heq, hp, hx, hy, hmv⟩ := isMoveProp_some hm
        injection heq with hcp htail
        subst hcp htail
        simp only [matchAllMovesGo, hm, List.drop_succ_cons, List.drop_zero]
        rw [filterMap_range_drop_cons, isMoveProp_none_head _ (by decide)]
        rw [filterMap_range_drop_cons, isMoveProp_none_head _ (lower_not_BW hx)]
        rw [filterMap_range_drop_cons, isMoveProp_none_head _ (lower_not_BW hy)]
        rw [filterMap_range_drop_cons, isMoveProp_none_head _ (by decide)]
        have hlen : rest2.length ≤ fuel := by
          simp only [List.length_cons] at h
          omega
        rw [ih rest2 hlen]
        simp

theorem sgfAnswers_spec (cs : List Char) :
    sgfAnswers cs = (List.range cs.length).filterMap (fun i => isMoveProp (cs.drop i)) :=
  matchAllMovesGo_spec cs.length cs (Nat.le_refl _)

theorem length_filterMap_eq_countP {α β : Type} (g : α → Option β) (l : List α) :
    (l.filterMap g).length = l.countP (fun a => (g a).isSome) := by
  induction l with
  | nil => rfl
  | cons a l ih =>
    cases hg : g a <;> simp [List.filterMap_cons, hg, List.countP_cons, ih]

/-- C6: the parsed move sequence equals the captured groups of the
move-property pattern at every position of the fragment in increasing
position order (hence textual order), its length is the number of
positions at which a player-move property occurs, and every collected
coordinate is a two-character all-lowercase pair. -/
theorem move_sequence_parse (cs : List Char) :
    sgfAnswers cs = (List.range cs.length).filterMap (fun i => isMoveProp (cs.drop i)) ∧
      (sgfAnswers cs).length =
        (List.range cs.length).countP (fun i => (isMoveProp (cs.drop i)).isSome) ∧
      (sgfAnswers cs).all isLowerPair = true := by
  have hspec := sgfAnswers_spec cs
  refine ⟨hspec, ?_, ?_⟩
  · rw [hspec, length_filterMap_eq_countP]
  · rw [hspec, List.all_eq_true]
    intro mv hmv
    rw [List.mem_filterMap] at hmv
    obtain ⟨i, _, hi⟩ := hmv
    obtain ⟨p, x, y, rest, _, _, hx, hy, hmv2⟩ := isMoveProp_some hi
    subst hmv2
    rw [toLower_id_of_lower hx, toLower_id_of_lower hy]
    simp [isLowerPair, hx, hy]

theorem natDec_length_pos (n : Nat) : 0 < (natDec n).length := by
  show 0 < (natDecAux (n + 1) n).length
  rw [natDecAux]
  split
  · simp
  · simp

theorem intToDec_length_pos (v : Int) : 0 < (intToDec v).length := by
  rw [intToDec]
  split
  · simp
  · exact natDec_length_pos _

theorem sgfToHuman_length_pos (sgf : List Char) (boardSize : Nat) :
    0 < (sgfToHuman sgf boardSize).length := by
  simp only [sgfToHuman, List.length_append]
  cases hy : jsCharCodeAt sgf 1 with
  | none => simp [hy]
  | some cy =>
    have hpos := intToDec_length_pos ((boardSize : Int) - (cy - 97))
    simp only [hy]
    omega

theorem appendMove_length (sgfData : List Char) (color : Char) (mv : List Char) :
    (appendMove sgfData color mv).length = sgfData.length ∨
      (appendMove sgfData color mv).length = sgfData.length + (mv.length + 4) := by
  simp only [appendMove]
  cases hk : sgfData.reverse.dropWhile isWs with
  | nil => left; simp [hk]
  | cons d tl =>
    have hsum : (sgfData.reverse.takeWhile isWs).length + (d :: tl).length
        = sgfData.length := by
      have he := List.takeWhile_append_dropWhile (p := isWs) (l := sgfData.reverse)
      rw [hk] at he
      have hl := congrArg List.length he
      rw [List.length_append, List.length_reverse] at hl
      exact hl
    by_cases hc : d = ')'
    · right
      subst hc
      simp only [hk, List.head?_cons, List.tail_cons, if_true]
      simp only [List.length_append, List.length_reverse, List.length_cons, List.length_nil]
      simp only [List.length_cons] at hsum
      omega
    · left
      simp [hk, hc]

/-- C8: the judge, codec and appender are total functions that degrade
malformed or out-of-range input to a non-matching verdict instead of
failing: a submitted coordinate matching neither the normalized accepted
answers nor the recorded moves yields verdict false, while on every input
whatsoever humanToSgf produces a two-character string, sgfToHuman a
nonempty string, convertClickToSgf a two-character string, and appendMove
either the unchanged fragment or the fragment grown by exactly the
inserted move property. -/
theorem core_total_no_throw (sgfData : List Char) (answerField : Option (List Char))
    (defaultAnswer : List Char) (boardSize : Nat) (coords human sgf mv : List Char)
    (color : Char) (px py pw ph : ℚ)
    (h1 : coords ∉ normalizedExpected answerField defaultAnswer boardSize)
    (h2 : coords ∉ sgfAnswers sgfData) :
    (processAnswer sgfData answerField defaultAnswer boardSize coords).verdict = false ∧
      (humanToSgf human boardSize).length = 2 ∧
      0 < (sgfToHuman sgf boardSize).length ∧
      (convertClickToSgf px py pw ph boardSize).length = 2 ∧
      ((appendMove sgfData color mv).length = sgfData.length ∨
        (appendMove sgfData color mv).length = sgfData.length + (mv.length + 4)) := by
  have k1 : jsIncludes (normalizedExpected answerField defaultAnswer boardSize) coords
      = false := by
    simp only [jsIncludes, List.any_eq_false, beq_iff_eq]
    exact fun e he heq => h1 (heq ▸ he)
  have k2 : jsIncludes (sgfAnswers sgfData) coords = false := by
    simp only [jsIncludes, List.any_eq_false, beq_iff_eq]
    exact fun e he heq => h2 (heq ▸ he)
  refine ⟨?_, rfl, sgfToHuman_length_pos sgf boardSize, rfl, appendMove_length _ _ _⟩
  simp [processAnswer, k1, k2]

/-- Witness for C8 with a submission zz matching nothing. -/
theorem core_total_no_throw_witness :
    (("zz".toList ∉ normalizedExpected none ("pd".toList) 19) ∧
        "zz".toList ∉ sgfAnswers ("(;B[aa])".toList)) ∧
      (processAnswer ("(;B[aa])".toList) none ("pd".toList) 19 ("zz".toList)).verdict =
        false ∧
      (humanToSgf ("C7".toList) 19).length = 2 ∧
      0 < (sgfToHuman ("cm".toList) 19).length ∧
      (convertClickToSgf 1 2 100 100 19).length = 2 ∧
      ((appendMove ("(;B[aa])".toList) 'W' ("zz".toList)).length =
          ("(;B[aa])".toList).length ∨
        (appendMove ("(;B[aa])".toList) 'W' ("zz".toList)).length =
          ("(;B[aa])".toList).length + (("zz".toList).length + 4)) := by
  refine ⟨⟨by decide, by decide⟩, ?_⟩
  have h := core_total_no_throw ("(;B[aa])".toList) none ("pd".toList) 19 ("zz".toList)
    ("C7".toList) ("cm".toList) ("zz".toList) 'W' 1 2 100 100 (by decide) (by decide)
  exact h

theorem alphaSkip_toLower : ∀ i, i < 25 →
    Char.toLower (alphaSkip.getD i ' ') = alphaSkip.getD i ' ' := by decide

theorem alphaSkip_indexOf : ∀ i, i < 25 →
    jsIndexOfChar alphaSkip (alphaSkip.getD i ' ') = (i : Int) := by decide

theorem jsParseInt_natDec : ∀ r, r < 100 → jsParseInt (natDec r) = some ((r : Nat) : Int) := by
  decide

theorem fromCharCode_toNat : ∀ d : Nat, d < 26 →
    (jsFromCharCode (97 + (d : Int))).toNat = 97 + d := by
  decide

theorem alphaSkip_toUpper : ∀ i, i < 25 →
    Char.toUpper (alphaSkip.getD i ' ') = alphaSkipUpper.getD i ' ' := by decide

theorem jsCharAt_getD : ∀ i : Nat, i < 25 →
    jsCharAt alphaSkipUpper (i : Int) = [alphaSkipUpper.getD i ' '] := by decide

theorem intToDec_coe_nat (r : Nat) : intToDec (r : Int) = natDec r := by
  rw [intToDec, if_neg (by omega), Int.toNat_natCast]

theorem humanToSgf_mkHuman (N i r : Nat) (hi : i < 25) (hr2 : r ≤ N) (hN2 : N ≤ 26) :
    humanToSgf (mkHuman i r) N =
      [jsFromCharCode (97 + (i : Int)), jsFromCharCode (97 + ((N - r : Nat) : Int))] := by
  have h100 : r < 100 := by omega
  simp only [humanToSgf, mkHuman, List.take_succ_cons, List.take_zero, List.map_cons,
    List.map_nil, List.drop_succ_cons, List.drop_zero]
  rw [alphaSkip_toLower i hi, alphaSkip_indexOf i hi, jsParseInt_natDec r h100]
  rw [Nat.cast_sub hr2]

theorem sgfToHuman_pair (N i d : Nat) (hi : i < 25) (hd : d < 26) :
    sgfToHuman [jsFromCharCode (97 + (i : Int)), jsFromCharCode (97 + (d : Int))] N =
      alphaSkipUpper.getD i ' ' :: intToDec ((N : Int) - (d : Int)) := by
  have hx := fromCharCode_toNat i (by omega)
  have hyn := fromCharCode_toNat d hd
  simp only [sgfToHuman, jsCharCodeAt, List.get?_cons_zero, List.get?_cons_succ,
    Option.map_some']
  rw [hx, hyn]
  have e1 : ((97 + i : Nat) : Int) - 97 = (i : Int) := by push_cast; ring
  have e2 : (N : Int) - (((97 + d : Nat) : Int) - 97) = (N : Int) - (d : Int) := by
    push_cast
    ring
  rw [e1, e2, jsCharAt_getD i hi]
  rfl

/-- C2: for every valid board size and in-range human coordinate built
from a skip-alphabet column letter and a 1-based row, converting to SGF
form and back reproduces the row number exactly, and reproduces the
column as the uppercase form of the same skip-alphabet letter, the
asymmetric convention (skip-alphabet index on input, plain 0-based letter
in storage, uppercase skip-alphabet on display) applied identically in
both directions. -/
theorem coord_roundtrip (N i r : Nat) (hN1 : 1 ≤ N) (hN2 : N ≤ 26) (hi : i < 25)
    (hr1 : 1 ≤ r) (hr2 : r ≤ N) :
    sgfToHuman (humanToSgf (mkHuman i r) N) N = alphaSkipUpper.getD i ' ' :: natDec r ∧
      alphaSkipUpper.getD i ' ' = Char.toUpper (alphaSkip.getD i ' ') := by
  constructor
  · rw [humanToSgf_mkHuman N i r hi hr2 hN2]
    rw [sgfToHuman_pair N i (N - r) hi (by omega)]
    have e : (N : Int) - ((N - r : Nat) : Int) = (r : Int) := by
      rw [Nat.cast_sub hr2]
      ring
    rw [e, intToDec_coe_nat]
  · exact (alphaSkip_toUpper i hi).symm

/-- Witness for C2 at board size 19, column c (index 2), row 7: the
round trip gives back C7. -/
theorem coord_roundtrip_witness :
    (1 ≤ 19 ∧ 19 ≤ 26 ∧ 2 < 25 ∧ 1 ≤ 7 ∧ 7 ≤ 19) ∧
      sgfToHuman (humanToSgf (mkHuman 2 7) 19) 19 = "C7".toList := by
  refine ⟨by decide, ?_⟩
  have h := coord_roundtrip 19 2 7 (by decide) (by decide) (by decide) (by decide) (by decide)
  rw [h.1]
  decide
